import Mathlib

/-!
Shallow embedding of `src/main.rs` (Advent of Code 2020 day 5 solver).

The program decodes 10-character seat codes over the alphabet F/B/L/R into
ids, sorts the decoded seats, and reports the lowest id, the highest id and
the single missing id in the range.  Fallible Rust code is modelled with
explicit result types; a Rust panic (arithmetic overflow in a debug build,
`unwrap` of `None`, index out of bounds) is modelled by a dedicated `panic`
constructor, distinct from the `Err` values the program returns.
-/

namespace Adv5

/-- Result of `to_id` in the source: `Ok(id)`, `Err(message)` or a panic. -/
inductive DecRes where
  | ok : Nat → DecRes
  | err : String → DecRes
  | panic : DecRes
deriving DecidableEq

/-- Worker for `to_id`: the fold
`code.chars().enumerate().fold(Ok(0u32), |acc, (i, c)| acc.and_then(|id| ...))`
from the source.  At position `i` the source computes `1u32 << (9 - i)`
before matching the character; for `i ≥ 10` the subtraction `9 - i`
underflows, which is a panic in a debug build, so the embedding returns
`panic` there.  For `i ≤ 9` the mask is `2 ^ (9 - i)`.  An `Err`
accumulator short-circuits the remaining characters via `and_then`, which
the early `err` return models. -/
def to_id_go (i a : Nat) : List Char → DecRes
  | [] => .ok a
  | c :: cs =>
    if 10 ≤ i then .panic
    else if c = 'F' ∨ c = 'L' then to_id_go (i + 1) a cs
    else if c = 'B' ∨ c = 'R' then to_id_go (i + 1) (a ||| 2 ^ (9 - i)) cs
    else .err (String.singleton c ++ " is an illegal character")

/-- Embedding of `fn to_id(code: &str) -> Result<u32>` from the source. -/
def to_id (code : String) : DecRes :=
  to_id_go 0 0 code.toList

/-- Embedding of `struct Seat { id: u32, code: String }` from the source. -/
structure Seat where
  id : Nat
  code : String
deriving DecidableEq

/-- Result of `Seat::new_for_code`. -/
inductive SeatRes where
  | ok : Seat → SeatRes
  | err : String → SeatRes
  | panic : SeatRes
deriving DecidableEq

/-- Embedding of `Seat::new_for_code` from the source: decode, then accept the id iff
`id <= 1023`, otherwise return the "is too high" error. -/
def Seat.new_for_code (code : String) : SeatRes :=
  match to_id code with
  | .ok i => if i ≤ 1023 then .ok ⟨i, code⟩ else .err ("id " ++ toString i ++ " is too high")
  | .err e => .err e
  | .panic => .panic

/-- Spec-side predicate: the character sets a bit (B or R). -/
def upperChar (c : Char) : Prop := c = 'B' ∨ c = 'R'

instance (c : Char) : Decidable (upperChar c) := by
  unfold upperChar; infer_instance

/-- Spec-side predicate: the character belongs to the alphabet F/B/L/R. -/
def legalChar (c : Char) : Prop := c = 'F' ∨ c = 'L' ∨ c = 'B' ∨ c = 'R'

instance (c : Char) : Decidable (legalChar c) := by
  unfold legalChar; infer_instance

/-- Spec-side value of a code, following the spec text: position `i` has
bit weight `2 ^ (9 - i)`, set exactly when the character is B or R. -/
def codeValGo (i : Nat) : List Char → Nat
  | [] => 0
  | c :: cs => (if upperChar c then 2 ^ (9 - i) else 0) + codeValGo (i + 1) cs

/-- Spec-side id of a whole code string. -/
def codeVal (code : String) : Nat := codeValGo 0 code.toList

/-- The ordering the source puts on `Seat`: `Ord`/`PartialOrd` compare the
ids only, never the codes. -/
def seatLe (a b : Seat) : Prop := a.id ≤ b.id

instance : DecidableRel seatLe := fun a b => inferInstanceAs (Decidable (a.id ≤ b.id))

instance : IsTotal Seat seatLe := ⟨fun a b => Nat.le_total a.id b.id⟩

instance : IsTrans Seat seatLe := ⟨fun _ _ _ => Nat.le_trans⟩

/-- Embedding of `seats.sort()` from `main`: a stable sort by id.  Any sorted permutation
has the same id sequence, which is all the analysis below ever reads, so the
stable `insertionSort` is an exact model of Rust's stable `sort`. -/
def sortSeats (seats : List Seat) : List Seat := List.insertionSort seatLe seats

/-- Result of the range `find` in `main`: a found id, exhaustion of the
range (which `unwrap` turns into a panic), or an index-out-of-bounds panic
from `seats[(id - lowest) as usize]`. -/
inductive FindRes where
  | found : Nat → FindRes
  | noneFound : FindRes
  | panic : FindRes
deriving DecidableEq

/-- Embedding of the search
`(lowest..=highest).find(|id| seats[(id - lowest) as usize].id != *id)`
from `main`, with the iterator's id list made explicit.  Indexing out of
bounds is a panic (it never happens, but the embedding keeps the check). -/
def findMissing (sorted : List Seat) (lowest : Nat) : List Nat → FindRes
  | [] => .noneFound
  | j :: rest =>
    match sorted[j - lowest]? with
    | some s => if s.id ≠ j then .found j else findMissing sorted lowest rest
    | none => .panic

/-- Outcome of the analysis part of `main`: the printed triple
(lowest, highest, mine), or a panic from one of the `unwrap`s / an index
out of bounds.  `main` has no error-return path for the analysis. -/
inductive AnalyzeRes where
  | ok : Nat → Nat → Nat → AnalyzeRes
  | panic : AnalyzeRes
deriving DecidableEq

/-- The analysis `main` performs on the already-sorted seat vector:
`lowest = seats.first().unwrap().id`, `highest = seats.last().unwrap().id`,
`mine = (lowest..=highest).find(...).unwrap()`.  A failing `unwrap` is a
panic.  `List.range' lowest (highest + 1 - lowest)` is the id list of the
Rust iterator `lowest..=highest`. -/
def analyzeSorted (sorted : List Seat) : AnalyzeRes :=
  match sorted.head?, sorted.getLast? with
  | some f, some l =>
    match findMissing sorted f.id (List.range' f.id (l.id + 1 - f.id)) with
    | .found m => .ok f.id l.id m
    | _ => .panic
  | _, _ => .panic

/-- The whole analysis from `main`: sort, then read off the triple. -/
def analyze (seats : List Seat) : AnalyzeRes := analyzeSorted (sortSeats seats)

/-- Variant of `findMissing` with the seats replaced by their ids. -/
def findMissingIds (ids : List Nat) (lowest : Nat) : List Nat → FindRes
  | [] => .noneFound
  | j :: rest =>
    match ids[j - lowest]? with
    | some v => if v ≠ j then .found j else findMissingIds ids lowest rest
    | none => .panic

/-- Variant of `analyzeSorted` with the seats replaced by their ids. -/
def analyzeIds (ids : List Nat) : AnalyzeRes :=
  match ids.head?, ids.getLast? with
  | some lo, some hi =>
    match findMissingIds ids lo (List.range' lo (hi + 1 - lo)) with
    | .found m => .ok lo hi m
    | _ => .panic
  | _, _ => .panic

/-- The seat a line decodes to, when decoding succeeds. -/
def decodeSeat (line : String) : Option Seat :=
  match Seat.new_for_code line with
  | .ok s => some s
  | _ => none

/-- Result of `read_seats` in the source. -/
inductive SeatsRes where
  | ok : List Seat → SeatsRes
  | err : String → SeatsRes
  | panic : SeatsRes
deriving DecidableEq

/-- The fold in `read_seats`: every line is decoded in input order; a
decode panic aborts the whole run; otherwise `acc.and_then` keeps the
first error and a success is pushed onto the vector. -/
def read_seats_go (acc : Except String (List Seat)) : List String → SeatsRes
  | [] =>
    match acc with
    | .ok v => .ok v
    | .error e => .err e
  | line :: rest =>
    match Seat.new_for_code line with
    | .panic => .panic
    | .err e =>
      read_seats_go (match acc with | .ok _ => .error e | .error e0 => .error e0) rest
    | .ok s =>
      read_seats_go (match acc with | .ok v => .ok (v ++ [s]) | .error e0 => .error e0) rest

/-- Embedding of `fn read_seats` from the source, with the lines of the input file as
the input list (file I/O is an external collaborator). -/
def read_seats (lines : List String) : SeatsRes := read_seats_go (.ok []) lines

/-- Outcome of the whole decode-then-analyze pipeline of `main`. -/
inductive RunRes where
  | ok : Nat → Nat → Nat → RunRes
  | err : String → RunRes
  | panic : RunRes
deriving DecidableEq

/-- The decode-then-analyze pipeline of `main` on the input lines:
`read_seats`, then sort and report (lowest, highest, mine). -/
def run (lines : List String) : RunRes :=
  match read_seats lines with
  | .ok seats =>
    match analyze seats with
    | .ok lo hi mi => .ok lo hi mi
    | .panic => .panic
  | .err e => .err e
  | .panic => .panic

theorem codeValGo_lt : ∀ (cs : List Char) (i : Nat), i + cs.length ≤ 10 →
    codeValGo i cs < 2 ^ (10 - i)
  | [], i, _ => by
    simp only [codeValGo]
    exact Nat.pos_pow_of_pos _ (by omega)
  | c :: cs, i, h => by
    have hi : i ≤ 9 := by
      simp only [List.length_cons] at h; omega
    have ih := codeValGo_lt cs (i + 1) (by simp only [List.length_cons] at h; omega)
    have h2 : 10 - i = (10 - (i + 1)) + 1 := by omega
    have h3 : 9 - i = 10 - (i + 1) := by omega
    simp only [codeValGo, h2, h3, pow_succ]
    split <;> omega

/-- Bitwise-or with a small disjoint summand is addition. -/
theorem lor_eq_add_of_mod (k a m : Nat) (ha : a % 2 ^ k = 0) (hm : m < 2 ^ k) :
    a ||| m = a + m := by
  have hd : 2 ^ k * (a / 2 ^ k) = a := Nat.mul_div_cancel' (Nat.dvd_of_mod_eq_zero ha)
  calc a ||| m = 2 ^ k * (a / 2 ^ k) ||| m := by rw [hd]
    _ = 2 ^ k * (a / 2 ^ k) + m := (Nat.mul_add_lt_is_or hm _).symm
    _ = a + m := by rw [hd]

/-- The accumulation in `to_id` computes exactly the spec-side value, for
any legal suffix that fits in the 10 positions and any accumulator whose
bits all lie strictly above the remaining bit weights. -/
theorem to_id_go_ok : ∀ (cs : List Char) (i a : Nat), i + cs.length ≤ 10 →
    (∀ c ∈ cs, legalChar c) → a % 2 ^ (10 - i) = 0 →
    to_id_go i a cs = .ok (a + codeValGo i cs)
  | [], i, a, _, _, _ => by
    simp [to_id_go, codeValGo]
  | c :: cs, i, a, h, hleg, hmod => by
    have hi : i ≤ 9 := by
      simp only [List.length_cons] at h; omega
    have hlen : (i + 1) + cs.length ≤ 10 := by
      simp only [List.length_cons] at h; omega
    have hlegs : ∀ d ∈ cs, legalChar d := fun d hd => hleg d (List.mem_cons_of_mem c hd)
    have hdvd : (2 : Nat) ^ (9 - i) ∣ a :=
      dvd_trans (pow_dvd_pow 2 (by omega)) (Nat.dvd_of_mod_eq_zero hmod)
    have h3 : 10 - (i + 1) = 9 - i := by omega
    have hc := hleg c (List.mem_cons_self c cs)
    simp only [to_id_go, codeValGo]
    rw [if_neg (by omega)]
    rcases hc with hc | hc | hc | hc <;> subst hc
    · rw [if_pos (Or.inl rfl),
        to_id_go_ok cs (i + 1) a hlen hlegs (by rw [h3]; exact Nat.mod_eq_zero_of_dvd hdvd)]
      rw [if_neg (by decide : ¬ upperChar 'F')]
      simp
    · rw [if_pos (Or.inr rfl),
        to_id_go_ok cs (i + 1) a hlen hlegs (by rw [h3]; exact Nat.mod_eq_zero_of_dvd hdvd)]
      rw [if_neg (by decide : ¬ upperChar 'L')]
      simp
    · rw [if_neg (by decide), if_pos (Or.inl rfl)]
      have hm : (2 : Nat) ^ (9 - i) < 2 ^ (10 - i) :=
        Nat.pow_lt_pow_right (by omega) (by omega)
      have hor : a ||| 2 ^ (9 - i) = a + 2 ^ (9 - i) :=
        lor_eq_add_of_mod (10 - i) a _ hmod hm
      have hmod2 : (a + 2 ^ (9 - i)) % 2 ^ (10 - (i + 1)) = 0 := by
        rw [h3]
        exact Nat.mod_eq_zero_of_dvd (Dvd.dvd.add hdvd dvd_rfl)
      rw [hor, to_id_go_ok cs (i + 1) (a + 2 ^ (9 - i)) hlen hlegs hmod2]
      rw [if_pos (by decide : upperChar 'B')]
      simp only [DecRes.ok.injEq]
      omega
    · rw [if_neg (by decide), if_pos (Or.inr rfl)]
      have hm : (2 : Nat) ^ (9 - i) < 2 ^ (10 - i) :=
        Nat.pow_lt_pow_right (by omega) (by omega)
      have hor : a ||| 2 ^ (9 - i) = a + 2 ^ (9 - i) :=
        lor_eq_add_of_mod (10 - i) a _ hmod hm
      have hmod2 : (a + 2 ^ (9 - i)) % 2 ^ (10 - (i + 1)) = 0 := by
        rw [h3]
        exact Nat.mod_eq_zero_of_dvd (Dvd.dvd.add hdvd dvd_rfl)
      rw [hor, to_id_go_ok cs (i + 1) (a + 2 ^ (9 - i)) hlen hlegs hmod2]
      rw [if_pos (by decide : upperChar 'R')]
      simp only [DecRes.ok.injEq]
      omega

/-- C2: for every string of exactly 10 characters drawn from F/B/L/R,
decoding succeeds and yields the id whose bit of weight `2 ^ (9 - i)` at
position `i` is set exactly for B or R, and that id is at most 1023. -/
theorem c2_decode_valid_codes (code : String)
    (hlen : code.toList.length = 10) (hleg : ∀ c ∈ code.toList, legalChar c) :
    to_id code = DecRes.ok (codeVal code) ∧ codeVal code ≤ 1023 := by
  have h1 := to_id_go_ok code.toList 0 0 (by omega) hleg (by simp)
  have h2 := codeValGo_lt code.toList 0 (by omega)
  have h3 : (2 : Nat) ^ (10 - 0) = 1024 := by norm_num
  refine ⟨?_, ?_⟩
  · unfold to_id codeVal
    simpa using h1
  · unfold codeVal
    omega

/-- Witness for C2 at the concrete code FBFBBFFRLR. -/
theorem c2_witness :
    ("FBFBBFFRLR".toList.length = 10 ∧ (∀ c ∈ "FBFBBFFRLR".toList, legalChar c)) ∧
      (to_id "FBFBBFFRLR" = DecRes.ok (codeVal "FBFBBFFRLR") ∧ codeVal "FBFBBFFRLR" ≤ 1023) :=
  ⟨⟨by decide, by decide⟩, c2_decode_valid_codes "FBFBBFFRLR" (by decide) (by decide)⟩

/-- C3: the six example codes decode to the six example ids. -/
theorem c3_decode_examples :
    Seat.new_for_code "FFFFFFFLLL" = SeatRes.ok ⟨0, "FFFFFFFLLL"⟩ ∧
      Seat.new_for_code "BBBBBBBRRR" = SeatRes.ok ⟨1023, "BBBBBBBRRR"⟩ ∧
      Seat.new_for_code "FBFBBFFRLR" = SeatRes.ok ⟨357, "FBFBBFFRLR"⟩ ∧
      Seat.new_for_code "BFFFBBFRRR" = SeatRes.ok ⟨567, "BFFFBBFRRR"⟩ ∧
      Seat.new_for_code "FFFBBBFRRR" = SeatRes.ok ⟨119, "FFFBBBFRRR"⟩ ∧
      Seat.new_for_code "BBFFBBFRLL" = SeatRes.ok ⟨820, "BBFFBBFRLL"⟩ := by
  decide

theorem to_id_go_lt_1024 : ∀ (cs : List Char) (i a v : Nat), a < 1024 →
    to_id_go i a cs = .ok v → v < 1024
  | [], _, a, v, ha, h => by
    simp only [to_id_go, DecRes.ok.injEq] at h
    omega
  | c :: cs, i, a, v, ha, h => by
    simp only [to_id_go] at h
    split at h
    · exact absurd h (by simp)
    · split at h
      · exact to_id_go_lt_1024 cs (i + 1) a v ha h
      · split at h
        · refine to_id_go_lt_1024 cs (i + 1) _ v ?_ h
          have h10 : (2 : Nat) ^ 10 = 1024 := by norm_num
          have hp : (2 : Nat) ^ (9 - i) < 2 ^ 10 :=
            Nat.pow_lt_pow_right (by omega) (by omega)
          have hor := Nat.or_lt_two_pow (show a < 2 ^ 10 by omega) hp
          omega
        · exact absurd h (by simp)

/-- C9: whenever the bit accumulation `to_id` succeeds, the id is at most
1023, so `Seat::new_for_code` always takes its `Ok` branch and the
"is too high" error is unreachable. -/
theorem c9_id_le_1023 (code : String) (v : Nat) (h : to_id code = DecRes.ok v) :
    v ≤ 1023 ∧ Seat.new_for_code code = SeatRes.ok ⟨v, code⟩ := by
  have hv : v < 1024 := to_id_go_lt_1024 code.toList 0 0 v (by omega) h
  refine ⟨by omega, ?_⟩
  simp only [Seat.new_for_code, h]
  rw [if_pos (by omega)]

/-- Witness for C9 at the maximal code BBBBBBBRRR. -/
theorem c9_witness :
    to_id "BBBBBBBRRR" = DecRes.ok 1023 ∧
      (1023 ≤ 1023 ∧ Seat.new_for_code "BBBBBBBRRR" = SeatRes.ok ⟨1023, "BBBBBBBRRR"⟩) :=
  ⟨by decide, c9_id_le_1023 "BBBBBBBRRR" 1023 (by decide)⟩

/-- C10: the decoder enforces no minimum length: every code of at most 10
characters over F/B/L/R decodes successfully to its spec-side value. -/
theorem c10_short_codes_ok (code : String)
    (hlen : code.toList.length ≤ 10) (hleg : ∀ c ∈ code.toList, legalChar c) :
    Seat.new_for_code code = SeatRes.ok ⟨codeVal code, code⟩ := by
  have h1 := to_id_go_ok code.toList 0 0 (by omega) hleg (by simp)
  have h2 := codeValGo_lt code.toList 0 (by omega)
  have h3 : (2 : Nat) ^ (10 - 0) = 1024 := by norm_num
  have h4 : to_id code = DecRes.ok (codeVal code) := by
    unfold to_id codeVal
    simpa using h1
  simp only [Seat.new_for_code, h4]
  rw [if_pos (by unfold codeVal; omega)]

/-- Witness for C10 at the empty string: decoding yields the id 0. -/
theorem c10_witness :
    ("".toList.length ≤ 10 ∧ (∀ c ∈ "".toList, legalChar c)) ∧
      Seat.new_for_code "" = SeatRes.ok ⟨0, ""⟩ :=
  ⟨⟨by decide, by decide⟩,
    (by decide : codeVal "" = 0) ▸ c10_short_codes_ok "" (by decide) (by decide)⟩

theorem to_id_go_err : ∀ (pre : List Char) (i a : Nat), i + pre.length ≤ 9 →
    (∀ d ∈ pre, legalChar d) → ∀ (c : Char), ¬ legalChar c → ∀ (post : List Char),
    to_id_go i a (pre ++ c :: post) =
      .err (String.singleton c ++ " is an illegal character")
  | [], i, a, h, _, c, hc, post => by
    simp only [List.nil_append, to_id_go]
    rw [if_neg (by omega), if_neg (fun hor => hc (hor.elim Or.inl (fun h2 => Or.inr (Or.inl h2)))),
      if_neg (fun hor => hc (hor.elim (fun h2 => Or.inr (Or.inr (Or.inl h2)))
        (fun h2 => Or.inr (Or.inr (Or.inr h2)))))]
  | d :: pre, i, a, h, hleg, c, hc, post => by
    have hd := hleg d (List.mem_cons_self d pre)
    have hlen : (i + 1) + pre.length ≤ 9 := by
      simp only [List.length_cons] at h; omega
    have hlegs : ∀ e ∈ pre, legalChar e := fun e he => hleg e (List.mem_cons_of_mem d he)
    simp only [List.cons_append, to_id_go]
    rw [if_neg (by omega)]
    rcases hd with hd | hd | hd | hd <;> subst hd
    · rw [if_pos (Or.inl rfl)]
      exact to_id_go_err pre (i + 1) a hlen hlegs c hc post
    · rw [if_pos (Or.inr rfl)]
      exact to_id_go_err pre (i + 1) a hlen hlegs c hc post
    · rw [if_neg (by decide), if_pos (Or.inl rfl)]
      exact to_id_go_err pre (i + 1) _ hlen hlegs c hc post
    · rw [if_neg (by decide), if_pos (Or.inr rfl)]
      exact to_id_go_err pre (i + 1) _ hlen hlegs c hc post

/-- C4 counterexample: the code FFFFFFFFFFX contains the illegal character
X, yet decoding does not return a decode error: the eleventh position makes
`9 - i` underflow first, which is a panic, not an `Err`. -/
theorem c4_counterexample :
    to_id "FFFFFFFFFFX" = DecRes.panic ∧
      to_id "FFFFFFFFFFX" ≠
        DecRes.err (String.singleton 'X' ++ " is an illegal character") := by
  decide

/-- C4 (amended): if the first character outside F/B/L/R occurs at a
position index at most 9, decoding fails with the decode error naming that
character. -/
theorem c4_first_illegal_reported (code : String) (pre : List Char) (c : Char)
    (post : List Char) (hsplit : code.toList = pre ++ c :: post)
    (hpre : ∀ d ∈ pre, legalChar d) (hc : ¬ legalChar c) (hpos : pre.length ≤ 9) :
    to_id code = DecRes.err (String.singleton c ++ " is an illegal character") ∧
      Seat.new_for_code code =
        SeatRes.err (String.singleton c ++ " is an illegal character") := by
  have h1 : to_id code = DecRes.err (String.singleton c ++ " is an illegal character") := by
    unfold to_id
    rw [hsplit]
    exact to_id_go_err pre 0 0 (by omega) hpre c hc post
  exact ⟨h1, by simp only [Seat.new_for_code, h1]⟩

/-- Witness for C4 (amended) at the code FFXF: the error names X. -/
theorem c4_witness :
    ("FFXF".toList = ['F', 'F'] ++ 'X' :: ['F'] ∧
        (∀ d ∈ (['F', 'F'] : List Char), legalChar d) ∧ ¬ legalChar 'X' ∧
        (['F', 'F'] : List Char).length ≤ 9) ∧
      (to_id "FFXF" = DecRes.err (String.singleton 'X' ++ " is an illegal character") ∧
        Seat.new_for_code "FFXF" =
          SeatRes.err (String.singleton 'X' ++ " is an illegal character")) :=
  ⟨⟨by decide, by decide, by decide, by decide⟩,
    c4_first_illegal_reported "FFXF" ['F', 'F'] 'X' ['F']
      (by decide) (by decide) (by decide) (by decide)⟩

/-- C5: the code does not guard the eleventh position.  On the 11-character
all-legal code FFFFFFFFFFF the decoder hits the underflowing `9 - i` at
position 10 and panics in a debug build instead of returning an
illegal-input error (in a release build the wrapped shift would even let
this code decode successfully), contradicting the spec's requirement. -/
theorem c5_long_code_panics :
    to_id "FFFFFFFFFFF" = DecRes.panic ∧
      Seat.new_for_code "FFFFFFFFFFF" = SeatRes.panic := by
  decide

theorem findMissing_eq_ids (sorted : List Seat) (lowest : Nat) :
    ∀ r, findMissing sorted lowest r = findMissingIds (sorted.map Seat.id) lowest r := by
  intro r
  induction r with
  | nil => rfl
  | cons j rest ih =>
    simp only [findMissing, findMissingIds, List.getElem?_map]
    cases h : sorted[j - lowest]? with
    | none => rfl
    | some s =>
      simp only [Option.map_some']
      by_cases hne : s.id ≠ j
      · rw [if_pos hne, if_pos hne]
      · rw [if_neg hne, if_neg hne, ih]

theorem analyzeSorted_eq_ids (sorted : List Seat) :
    analyzeSorted sorted = analyzeIds (sorted.map Seat.id) := by
  unfold analyzeSorted analyzeIds
  rw [List.head?_map, List.getLast?_map]
  cases hh : sorted.head? with
  | none => rfl
  | some f =>
    cases hl : sorted.getLast? with
    | none => rfl
    | some l =>
      simp only [Option.map_some']
      rw [findMissing_eq_ids]

theorem findMissingIds_noneFound (ids : List Nat) (lowest : Nat) :
    ∀ (k j : Nat), (∀ t, t < k → ids[j + t - lowest]? = some (j + t)) →
      findMissingIds ids lowest (List.range' j k) = FindRes.noneFound := by
  intro k
  induction k with
  | zero => intro j _; rfl
  | succ k ih =>
    intro j h
    rw [List.range'_succ]
    have h0 : ids[j - lowest]? = some j := by
      have := h 0 (by omega)
      simpa using this
    simp only [findMissingIds, h0]
    rw [if_neg (fun hne => hne rfl)]
    refine ih (j + 1) (fun t ht => ?_)
    have := h (t + 1) (by omega)
    have he : j + (t + 1) = j + 1 + t := by omega
    rwa [he] at this

theorem findMissingIds_found (ids : List Nat) (lowest : Nat) :
    ∀ (g j k w : Nat), (∀ t, t < g → ids[j + t - lowest]? = some (j + t)) →
      g < k → ids[j + g - lowest]? = some w → w ≠ j + g →
      findMissingIds ids lowest (List.range' j k) = FindRes.found (j + g) := by
  intro g
  induction g with
  | zero =>
    intro j k w _ hk hw hne
    obtain ⟨k', rfl⟩ : ∃ k', k = k' + 1 := ⟨k - 1, by omega⟩
    rw [List.range'_succ]
    simp only [Nat.add_zero] at hw hne
    simp only [findMissingIds, hw]
    rw [if_pos hne]
    simp
  | succ g ih =>
    intro j k w h hk hw hne
    obtain ⟨k', rfl⟩ : ∃ k', k = k' + 1 := ⟨k - 1, by omega⟩
    rw [List.range'_succ]
    have h0 : ids[j - lowest]? = some j := by
      have := h 0 (by omega)
      simpa using this
    simp only [findMissingIds, h0]
    rw [if_neg (fun hne2 => hne2 rfl)]
    have he : j + 1 + g = j + (g + 1) := by omega
    have hpre : ∀ t, t < g → ids[j + 1 + t - lowest]? = some (j + 1 + t) := by
      intro t ht
      have := h (t + 1) (by omega)
      have he2 : j + (t + 1) = j + 1 + t := by omega
      rwa [he2] at this
    have := ih (j + 1) k' w hpre (by omega) (by rwa [he]) (by rwa [he])
    rwa [he] at this

theorem gapIds_getElem_left (a n m t : Nat) (ht : t < n) :
    (List.range' a n ++ List.range' (a + n + 1) m)[t]? = some (a + t) := by
  rw [List.getElem?_append_left (by simpa using ht), List.getElem?_range' a 1 ht]
  simp

theorem gapIds_getElem_gap (a n m : Nat) (hm : 0 < m) :
    (List.range' a n ++ List.range' (a + n + 1) m)[n]? = some (a + n + 1) := by
  rw [List.getElem?_append_right (by simp)]
  simp only [List.length_range', Nat.sub_self]
  rw [List.getElem?_range' (a + n + 1) 1 hm]

/-- On a sorted id sequence that is a contiguous run, a single missing id,
then a second contiguous run, the analysis yields the first id, the last
id and the missing id. -/
theorem analyzeIds_gap (a n m : Nat) (hn : 0 < n) (hm : 0 < m) :
    analyzeIds (List.range' a n ++ List.range' (a + n + 1) m) =
      AnalyzeRes.ok a (a + n + m) (a + n) := by
  have hhead : (List.range' a n ++ List.range' (a + n + 1) m).head? = some a := by
    rw [List.head?_eq_getElem?]
    have := gapIds_getElem_left a n m 0 hn
    simpa using this
  have hlast : (List.range' a n ++ List.range' (a + n + 1) m).getLast? =
      some (a + n + m) := by
    rw [List.getLast?_eq_getElem?]
    simp only [List.length_append, List.length_range']
    rw [List.getElem?_append_right (by simp only [List.length_range']; omega)]
    simp only [List.length_range']
    rw [show n + m - 1 - n = m - 1 by omega]
    rw [List.getElem?_range' (a + n + 1) 1 (by omega)]
    have : a + n + 1 + 1 * (m - 1) = a + n + m := by omega
    rw [this]
  have hfind : findMissingIds (List.range' a n ++ List.range' (a + n + 1) m) a
      (List.range' a (a + n + m + 1 - a)) = FindRes.found (a + n) := by
    have := findMissingIds_found (List.range' a n ++ List.range' (a + n + 1) m) a
      n a (a + n + m + 1 - a) (a + n + 1)
      (fun t ht => by
        have he : a + t - a = t := by omega
        rw [he]
        exact gapIds_getElem_left a n m t ht)
      (by omega)
      (by
        have he : a + n - a = n := by omega
        rw [he]
        exact gapIds_getElem_gap a n m hm)
      (by omega)
    exact this
  simp only [analyzeIds, hhead, hlast, hfind]

/-- C1: for every seat collection whose sorted id sequence covers an
inclusive range completely except for one interior id (the spec's
precondition), the analysis returns the smallest id, the largest id, and
the missing id, which is the smallest id whose slot in the sorted sequence
holds a different id. -/
theorem c1_analysis_single_gap (seats : List Seat) (a n m : Nat)
    (hn : 0 < n) (hm : 0 < m)
    (hs : (sortSeats seats).map Seat.id =
      List.range' a n ++ List.range' (a + n + 1) m) :
    analyze seats = AnalyzeRes.ok a (a + n + m) (a + n) := by
  unfold analyze
  rw [analyzeSorted_eq_ids, hs]
  exact analyzeIds_gap a n m hn hm

/-- Witness for C1 at the id set given in the spec: ids 1, 2, 4, 5 (here
presented out of order) yield lowest 1, highest 5, missing 3. -/
theorem c1_witness :
    (0 < 2 ∧ 0 < 2 ∧
        (sortSeats [⟨4, ""⟩, ⟨1, ""⟩, ⟨5, ""⟩, ⟨2, ""⟩]).map Seat.id =
          List.range' 1 2 ++ List.range' (1 + 2 + 1) 2) ∧
      analyze [⟨4, ""⟩, ⟨1, ""⟩, ⟨5, ""⟩, ⟨2, ""⟩] = AnalyzeRes.ok 1 5 3 :=
  ⟨⟨by decide, by decide, by decide⟩,
    c1_analysis_single_gap [⟨4, ""⟩, ⟨1, ""⟩, ⟨5, ""⟩, ⟨2, ""⟩] 1 2 2
      (by decide) (by decide) (by decide)⟩

/-- On a sorted id sequence that is one contiguous run, the range `find`
exhausts without a hit and the `unwrap` panics. -/
theorem analyzeIds_contiguous (a n : Nat) (hn : 0 < n) :
    analyzeIds (List.range' a n) = AnalyzeRes.panic := by
  have hget : ∀ t, t < n → (List.range' a n)[t]? = some (a + t) := by
    intro t ht
    rw [List.getElem?_range' a 1 ht]
    simp
  have hhead : (List.range' a n).head? = some a := by
    rw [List.head?_eq_getElem?]
    have := hget 0 hn
    simpa using this
  have hlast : (List.range' a n).getLast? = some (a + (n - 1)) := by
    rw [List.getLast?_eq_getElem?]
    simp only [List.length_range']
    exact hget (n - 1) (by omega)
  have hfind : findMissingIds (List.range' a n) a
      (List.range' a (a + (n - 1) + 1 - a)) = FindRes.noneFound := by
    have he : a + (n - 1) + 1 - a = n := by omega
    rw [he]
    exact findMissingIds_noneFound (List.range' a n) a n a
      (fun t ht => by
        have he2 : a + t - a = t := by omega
        rw [he2]
        exact hget t ht)
  simp only [analyzeIds, hhead, hlast, hfind]

/-- C6 counterexample: on the empty collection the analysis does not fail
with an error value; it panics (`seats.first().unwrap()` on an empty,
sorted vector), i.e. it crashes. -/
theorem c6_counterexample : analyze [] = AnalyzeRes.panic := rfl

/-- C6 (amended): on the empty collection the analysis aborts with a panic
rather than producing a (lowest, highest, missing) triple or an error
value; the whole pipeline on an empty input panics as well. -/
theorem c6_empty_aborts :
    analyze [] = AnalyzeRes.panic ∧ run [] = RunRes.panic := by
  decide

/-- C7 counterexample: on the gap-free id set 5, 6, 7 the analysis does
not fail with an error value; the range `find` comes back empty and the
`unwrap` panics, i.e. it crashes. -/
theorem c7_counterexample :
    analyze [⟨5, ""⟩, ⟨6, ""⟩, ⟨7, ""⟩] = AnalyzeRes.panic := by
  decide

/-- C7 (amended): for every non-empty collection whose sorted ids form one
contiguous gap-free run, the analysis panics rather than returning a
triple. -/
theorem c7_no_gap_panics (seats : List Seat) (a n : Nat) (hn : 0 < n)
    (hs : (sortSeats seats).map Seat.id = List.range' a n) :
    analyze seats = AnalyzeRes.panic := by
  unfold analyze
  rw [analyzeSorted_eq_ids, hs]
  exact analyzeIds_contiguous a n hn

/-- Witness for C7 (amended) at the spec's example id set 1, 2, 3. -/
theorem c7_witness :
    (0 < 3 ∧ (sortSeats [⟨1, ""⟩, ⟨2, ""⟩, ⟨3, ""⟩]).map Seat.id = List.range' 1 3) ∧
      analyze [⟨1, ""⟩, ⟨2, ""⟩, ⟨3, ""⟩] = AnalyzeRes.panic :=
  ⟨⟨by decide, by decide⟩,
    c7_no_gap_panics [⟨1, ""⟩, ⟨2, ""⟩, ⟨3, ""⟩] 1 3 (by decide) (by decide)⟩

theorem sortSeats_map_id_eq {s₁ s₂ : List Seat} (h : s₁.Perm s₂) :
    (sortSeats s₁).map Seat.id = (sortSeats s₂).map Seat.id := by
  have hp : ((sortSeats s₁).map Seat.id).Perm ((sortSeats s₂).map Seat.id) :=
    (((List.perm_insertionSort seatLe s₁).trans h).trans
      (List.perm_insertionSort seatLe s₂).symm).map Seat.id
  have hs₁ : ((sortSeats s₁).map Seat.id).Sorted (· ≤ ·) :=
    (List.pairwise_map).mpr (List.sorted_insertionSort seatLe s₁)
  have hs₂ : ((sortSeats s₂).map Seat.id).Sorted (· ≤ ·) :=
    (List.pairwise_map).mpr (List.sorted_insertionSort seatLe s₂)
  exact List.eq_of_perm_of_sorted hp hs₁ hs₂

/-- The analysis only reads the sorted id sequence, so it is invariant
under permutation of the seat collection. -/
theorem analyze_perm {s₁ s₂ : List Seat} (h : s₁.Perm s₂) :
    analyze s₁ = analyze s₂ := by
  unfold analyze
  rw [analyzeSorted_eq_ids, analyzeSorted_eq_ids, sortSeats_map_id_eq h]

theorem read_seats_go_error_ne_ok (lines : List String) :
    ∀ (e : String) (v : List Seat), read_seats_go (.error e) lines ≠ SeatsRes.ok v := by
  induction lines with
  | nil => intro e v h; exact SeatsRes.noConfusion h
  | cons line rest ih =>
    intro e v h
    simp only [read_seats_go] at h
    cases hd : Seat.new_for_code line <;> rw [hd] at h
    · exact ih e v h
    · exact ih _ v h
    · exact SeatsRes.noConfusion h

theorem read_seats_go_all_ok (lines : List String) :
    ∀ (v : List Seat), (∀ l ∈ lines, ∃ s, Seat.new_for_code l = SeatRes.ok s) →
      read_seats_go (.ok v) lines = SeatsRes.ok (v ++ lines.filterMap decodeSeat) := by
  induction lines with
  | nil => intro v _; simp [read_seats_go]
  | cons line rest ih =>
    intro v h
    obtain ⟨s, hs⟩ := h line (List.mem_cons_self line rest)
    have hrest : ∀ l ∈ rest, ∃ s, Seat.new_for_code l = SeatRes.ok s :=
      fun l hl => h l (List.mem_cons_of_mem line hl)
    have hds : decodeSeat line = some s := by
      simp [decodeSeat, hs]
    simp only [read_seats_go, hs, List.filterMap_cons, hds]
    rw [ih (v ++ [s]) hrest]
    simp

theorem read_seats_go_ok_all (lines : List String) :
    ∀ (v w : List Seat), read_seats_go (.ok v) lines = SeatsRes.ok w →
      ∀ l ∈ lines, ∃ s, Seat.new_for_code l = SeatRes.ok s := by
  induction lines with
  | nil => intro v w _ l hl; exact absurd hl (List.not_mem_nil l)
  | cons line rest ih =>
    intro v w h l hl
    simp only [read_seats_go] at h
    cases hd : Seat.new_for_code line <;> rw [hd] at h
    · rcases List.mem_cons.mp hl with rfl | hl2
      · exact ⟨_, hd⟩
      · exact ih _ w h l hl2
    · exact absurd h (read_seats_go_error_ne_ok rest _ w)
    · exact SeatsRes.noConfusion h

/-- C8: permuting the input lines does not change the reported
(lowest, highest, missing) triple, whenever the original run succeeds. -/
theorem c8_perm_invariant (lines lines' : List String) (lo hi mi : Nat)
    (hp : lines'.Perm lines) (h : run lines = RunRes.ok lo hi mi) :
    run lines' = RunRes.ok lo hi mi := by
  obtain ⟨seats, hr⟩ : ∃ seats, read_seats lines = SeatsRes.ok seats := by
    unfold run at h
    cases hrd : read_seats lines <;> rw [hrd] at h
    · exact ⟨_, rfl⟩
    · exact absurd h (by simp)
    · exact absurd h (by simp)
  have hall : ∀ l ∈ lines, ∃ s, Seat.new_for_code l = SeatRes.ok s :=
    read_seats_go_ok_all lines [] seats hr
  have hseats : seats = lines.filterMap decodeSeat := by
    have h2 : read_seats lines = SeatsRes.ok ([] ++ lines.filterMap decodeSeat) :=
      read_seats_go_all_ok lines [] hall
    rw [hr] at h2
    simpa using h2
  have hana : analyze seats = AnalyzeRes.ok lo hi mi := by
    unfold run at h
    simp only [hr] at h
    cases ha : analyze seats with
    | ok a b c =>
      simp only [ha, AnalyzeRes.ok.injEq, RunRes.ok.injEq] at h ⊢
      exact h
    | panic =>
      simp only [ha] at h
      exact absurd h (by simp)
  have hall' : ∀ l ∈ lines', ∃ s, Seat.new_for_code l = SeatRes.ok s :=
    fun l hl => hall l (hp.subset hl)
  have hr' : read_seats lines' = SeatsRes.ok (lines'.filterMap decodeSeat) := by
    have := read_seats_go_all_ok lines' [] hall'
    simpa [read_seats] using this
  have hperm : (lines'.filterMap decodeSeat).Perm seats := by
    rw [hseats]
    exact hp.filterMap decodeSeat
  have hana' : analyze (lines'.filterMap decodeSeat) = AnalyzeRes.ok lo hi mi := by
    rw [analyze_perm hperm, hana]
  simp only [run, hr', hana']

/-- Witness for C8: four codes with id set 1, 2, 4, 5, and their reversal
as the permutation; both runs report (1, 5, 3). -/
theorem c8_witness :
    ((["FFFFFFFRLL", "FFFFFFFLLR", "FFFFFFFRLR", "FFFFFFFLRL"].reverse).Perm
          ["FFFFFFFRLL", "FFFFFFFLLR", "FFFFFFFRLR", "FFFFFFFLRL"] ∧
        run ["FFFFFFFRLL", "FFFFFFFLLR", "FFFFFFFRLR", "FFFFFFFLRL"] =
          RunRes.ok 1 5 3) ∧
      run (["FFFFFFFRLL", "FFFFFFFLLR", "FFFFFFFRLR", "FFFFFFFLRL"].reverse) =
        RunRes.ok 1 5 3 :=
  ⟨⟨List.reverse_perm _, by decide⟩,
    c8_perm_invariant ["FFFFFFFRLL", "FFFFFFFLLR", "FFFFFFFRLR", "FFFFFFFLRL"]
      (["FFFFFFFRLL", "FFFFFFFLLR", "FFFFFFFRLR", "FFFFFFFLRL"].reverse) 1 5 3
      (List.reverse_perm _) (by decide)⟩

end Adv5
